import Mathlib

/-!
Verification of the Tukhor-AI RAG pipeline specification against the
repository's code.  Pure functions of the client (TypeScript) are embedded
directly; server-side components whose code is not in the repository snapshot
are modelled from the specification, as marked in their doc comments.
Machine reals (similarity scores, confidence values) are modelled as `ℚ`.
-/

namespace Tukhor

/-- Configured chunk size in characters, from the repository README
(`CHUNK_SIZE = 500`) and the API documentation vector-store configuration. -/
def CHUNK_SIZE : Nat := 500

/-- Configured chunk overlap in characters, from the repository README
(`CHUNK_OVERLAP = 50`). -/
def CHUNK_OVERLAP : Nat := 50

/-- Configured number of retrieved chunks, from the README (`TOP_K_CHUNKS = 5`). -/
def TOP_K_CHUNKS : Nat := 5

/-- Configured embedding dimension, from the README (`VECTOR_DIMENSION = 384`)
and the API documentation (embedding model
`sentence-transformers/paraphrase-multilingual-MiniLM-L12-v2`, embedding
dimension 384, also reported by the health endpoint). -/
def VECTOR_DIMENSION : Nat := 384

/-- Declared dimension of the `DocumentChunk.embedding` column in
`prisma/migrations/20250725234539_update_chat_schema_consolidation/migration.sql`:
`"embedding" vector(1536) NOT NULL`. -/
def documentChunkColumnDimension : Nat := 1536

/-- Default similarity threshold reported by the system-status endpoint in the
API documentation (`similarity_threshold: 0.3`). -/
def SIMILARITY_THRESHOLD : ℚ := 3 / 10

/-- Ceiling division on naturals, used to state the chunk-count formula of the
specification: `ceil(a / b) = (a + b - 1) / b`. -/
def ceilDiv (a b : Nat) : Nat := (a + b - 1) / b

/-- Modelled from the spec: the server-side chunker (`apps/server`, Python) is
not present under `src/`.  Following spec section 4.2, the text is cut into
windows of at most `size` characters advancing by `step = size - overlap`
characters, stopping as soon as the remaining text fits into a single chunk.
The first argument is fuel; `chunkText` supplies `t.length`, which always
suffices when `0 < step`. -/
def chunkGo (size step : Nat) : Nat → List Char → List (List Char)
  | 0, _ => []
  | fuel + 1, t =>
    if t.length ≤ size then [t]
    else t.take size :: chunkGo size step fuel (t.drop step)

/-- Modelled from the spec: chunking of a normalized text with parameters
`size` (chunk size) and `ov` (overlap); empty text yields zero chunks. -/
def chunkText (size ov : Nat) (t : List Char) : List (List Char) :=
  if t.length = 0 then [] else chunkGo size (size - ov) t.length t

/-- Number of chunks produced for a text of length `L`, in the recursion
structure of `chunkGo` (one chunk plus one more for every further `step`). -/
def chunkCount (size step L : Nat) : Nat :=
  if L ≤ size then 1 else ceilDiv (L - size) step + 1

/-- Reconstruction of a text from its chunks: the first chunk, followed by
every later chunk with its leading `ov` overlap characters removed. -/
def joinOverlap (ov : Nat) : List (List Char) → List Char
  | [] => []
  | c :: cs => c ++ (cs.map (fun d => d.drop ov)).flatten

lemma ceilDiv_add_right (a b : Nat) (hb : 0 < b) :
    ceilDiv (a + b) b = ceilDiv a b + 1 := by
  unfold ceilDiv
  rw [show a + b + b - 1 = a + b - 1 + b by omega, Nat.add_div_right _ hb]

lemma ceilDiv_eq_one (a b : Nat) (hb : 0 < b) (h1 : 1 ≤ a) (h2 : a ≤ b) :
    ceilDiv a b = 1 := by
  unfold ceilDiv
  rw [show a + b - 1 = (a - 1) + b by omega, Nat.add_div_right _ hb,
    Nat.div_eq_of_lt (by omega)]

lemma ceilDiv_mul_le (a b : Nat) : ceilDiv a b * b ≤ a + b - 1 := by
  unfold ceilDiv
  exact Nat.div_mul_le_self _ _

/-- The chunk count satisfies the specification's formula
`ceil((L - overlap) / (size - overlap))` for `L > size`. -/
lemma chunkCount_formula (size ov L : Nat) (hov : ov < size) (hL : size < L) :
    chunkCount size (size - ov) L = ceilDiv (L - ov) (size - ov) := by
  unfold chunkCount
  rw [if_neg (by omega)]
  have hstep : 0 < size - ov := by omega
  rw [show L - ov = (L - size) + (size - ov) by omega, ceilDiv_add_right _ _ hstep]

/-- Closed form of the chunker: chunk `i` is the `size`-character window of the
text starting at offset `i * step`. -/
lemma chunkGo_closed (size step : Nat) (hstep : 0 < step) (hss : step ≤ size) :
    ∀ (fuel : Nat) (t : List Char), t ≠ [] → t.length ≤ fuel →
      chunkGo size step fuel t
        = (List.range (chunkCount size step t.length)).map
            (fun i => (t.drop (i * step)).take size) := by
  intro fuel
  induction fuel with
  | zero =>
    intro t ht hle
    cases t with
    | nil => exact absurd rfl ht
    | cons a l => simp at hle
  | succ n ih =>
    intro t ht hle
    by_cases h : t.length ≤ size
    · have h1 : chunkCount size step t.length = 1 := by simp [chunkCount, h]
      rw [h1, show List.range 1 = [0] from rfl]
      simp [chunkGo, h, List.take_of_length_le h]
    · push_neg at h
      have hdrop_len : (t.drop step).length = t.length - step := by simp
      have hdrop_ne : t.drop step ≠ [] := by
        intro hnil
        rw [← List.length_eq_zero] at hnil
        omega
      have hfuel : (t.drop step).length ≤ n := by
        rw [hdrop_len]; omega
      have IH := ih (t.drop step) hdrop_ne hfuel
      have hcnt : chunkCount size step t.length
          = chunkCount size step (t.length - step) + 1 := by
        unfold chunkCount
        rw [if_neg (by omega)]
        by_cases h2 : t.length - step ≤ size
        · rw [if_pos h2, ceilDiv_eq_one (t.length - size) step (by omega)
            (by omega) (by omega)]
        · rw [if_neg h2]
          rw [show t.length - size = (t.length - step - size) + step by omega,
            ceilDiv_add_right _ _ hstep]
      rw [show chunkGo size step (n + 1) t
          = t.take size :: chunkGo size step n (t.drop step) by
        simp only [chunkGo]; rw [if_neg (by omega)]]
      rw [IH, hcnt, ← hdrop_len, List.range_succ_eq_map, List.map_cons,
        List.map_map]
      congr 1
      · simp
      · apply List.map_congr_left
        intro i _
        simp only [Function.comp_apply, List.drop_drop]
        congr 2
        rw [Nat.succ_eq_add_one]
        ring

/-- Closed form of `chunkText` on nonempty input. -/
lemma chunkText_closed (size ov : Nat) (hsize : 0 < size) (hov : ov < size)
    (t : List Char) (ht : t ≠ []) :
    chunkText size ov t
      = (List.range (chunkCount size (size - ov) t.length)).map
          (fun i => (t.drop (i * (size - ov))).take size) := by
  unfold chunkText
  rw [if_neg (by simpa [List.length_eq_zero] using ht)]
  exact chunkGo_closed size (size - ov) (by omega) (by omega) t.length t ht le_rfl

lemma chunkText_length (size ov : Nat) (hsize : 0 < size) (hov : ov < size)
    (t : List Char) (ht : t ≠ []) :
    (chunkText size ov t).length = chunkCount size (size - ov) t.length := by
  rw [chunkText_closed size ov hsize hov t ht]; simp

lemma getD_range_map (f : Nat → List Char) (k i : Nat) (h : i < k) :
    ((List.range k).map f).getD i [] = f i := by
  simp [List.getD_eq_getElem?_getD, List.getElem?_range h]

/-- Reconstruction: the first chunk followed by the later chunks with their
overlap removed concatenates back to the input text. -/
lemma joinOverlap_chunkGo (size ov : Nat) (hsize : 0 < size) (hov : ov < size) :
    ∀ (fuel : Nat) (t : List Char), t ≠ [] → t.length ≤ fuel →
      joinOverlap ov (chunkGo size (size - ov) fuel t) = t := by
  intro fuel
  induction fuel with
  | zero =>
    intro t ht hle
    cases t with
    | nil => exact absurd rfl ht
    | cons a l => simp at hle
  | succ n ih =>
    intro t ht hle
    by_cases h : t.length ≤ size
    · simp [chunkGo, h, joinOverlap]
    · push_neg at h
      have hstep : 0 < size - ov := by omega
      set step := size - ov with hstepdef
      set u := t.drop step with hu
      have hulen : u.length = t.length - step := by simp [hu]
      have hune : u ≠ [] := by
        intro hnil
        rw [← List.length_eq_zero, hulen] at hnil
        omega
      have hun : u.length ≤ n := by omega
      obtain ⟨m, hm⟩ : ∃ m, n = m + 1 := by
        cases n with
        | zero =>
          exfalso
          have h1 : 1 ≤ u.length := by
            rw [hulen]; omega
          omega
        | succ m => exact ⟨m, rfl⟩
      obtain ⟨r, hr⟩ : ∃ r, chunkGo size step n u = u.take size :: r := by
        subst hm
        by_cases hus : u.length ≤ size
        · exact ⟨[], by simp [chunkGo, hus, List.take_of_length_le hus]⟩
        · refine ⟨chunkGo size step m (u.drop step), ?_⟩
          simp only [chunkGo]
          rw [if_neg hus]
      have IH := ih u hune hun
      rw [hr] at IH
      have hX : (r.map (fun d => d.drop ov)).flatten = u.drop size := by
        apply List.append_cancel_left
        show u.take size ++ _ = u.take size ++ u.drop size
        rw [List.take_append_drop]
        simpa [joinOverlap] using IH
      rw [show chunkGo size step (n + 1) t
          = t.take size :: chunkGo size step n u by
        simp only [chunkGo]; rw [if_neg (by omega)]]
      rw [hr]
      simp only [joinOverlap, List.map_cons, List.flatten_cons, hX]
      rw [List.drop_take, hu, List.drop_drop, List.drop_drop]
      rw [show step + ov = size by omega, show size - ov = step from rfl,
        show step + size = size + step by omega]
      rw [show t.drop (size + step) = (t.drop size).drop step by
        rw [List.drop_drop]]
      rw [List.take_append_drop, List.take_append_drop]

/-- Claim C3: for every text and valid parameters (`0 < chunk_size`,
`0 ≤ overlap < chunk_size`), the chunker yields zero chunks on empty text,
one chunk when the text fits in a single chunk, and exactly
`ceil((len - overlap) / (chunk_size - overlap))` chunks otherwise; every chunk
has length at most `chunk_size`; every pair of consecutive chunks shares
exactly `overlap` characters (the trailing `overlap` characters of one chunk
are the leading `overlap` characters of the next); concatenation with the
overlap removed reconstructs the text; chunk indices are assigned in
production order starting at 0; and with `chunk_size = 500`, `overlap = 50`
a text of length 1200 yields exactly 3 chunks with chunks 0 and 1 sharing 50
characters. -/
theorem chunker_spec (size ov : Nat) (t : List Char)
    (hsize : 0 < size) (hov : ov < size) :
    (t = [] → chunkText size ov t = [])
    ∧ (t ≠ [] → t.length ≤ size → (chunkText size ov t).length = 1)
    ∧ (size < t.length →
        (chunkText size ov t).length = ceilDiv (t.length - ov) (size - ov))
    ∧ (∀ c ∈ chunkText size ov t, c.length ≤ size)
    ∧ (∀ i, i + 1 < (chunkText size ov t).length →
        ((chunkText size ov t).getD i []).drop (size - ov)
            = ((chunkText size ov t).getD (i + 1) []).take ov
          ∧ (((chunkText size ov t).getD (i + 1) []).take ov).length = ov)
    ∧ (t ≠ [] → joinOverlap ov (chunkText size ov t) = t)
    ∧ ((chunkText size ov t).enum.map Prod.fst
        = List.range (chunkText size ov t).length)
    ∧ (size = 500 → ov = 50 → t.length = 1200 →
        (chunkText size ov t).length = 3
          ∧ ((chunkText size ov t).getD 0 []).drop 450
              = ((chunkText size ov t).getD 1 []).take 50
          ∧ (((chunkText size ov t).getD 1 []).take 50).length = 50) := by
  have hempty : t = [] → chunkText size ov t = [] := by
    intro h; simp [chunkText, h]
  have hone : t ≠ [] → t.length ≤ size → (chunkText size ov t).length = 1 := by
    intro ht hle
    rw [chunkText_length size ov hsize hov t ht]
    simp [chunkCount, hle]
  have hmany : size < t.length →
      (chunkText size ov t).length = ceilDiv (t.length - ov) (size - ov) := by
    intro hL
    have ht : t ≠ [] := by
      intro hnil; rw [← List.length_eq_zero] at hnil; omega
    rw [chunkText_length size ov hsize hov t ht,
      chunkCount_formula size ov t.length hov hL]
  have hlenle : ∀ c ∈ chunkText size ov t, c.length ≤ size := by
    intro c hc
    by_cases ht : t = []
    · rw [hempty ht] at hc; simp at hc
    · rw [chunkText_closed size ov hsize hov t ht] at hc
      simp only [List.mem_map] at hc
      obtain ⟨i, _, hi⟩ := hc
      rw [← hi]
      simp [List.length_take]
  have hshare : ∀ i, i + 1 < (chunkText size ov t).length →
      ((chunkText size ov t).getD i []).drop (size - ov)
          = ((chunkText size ov t).getD (i + 1) []).take ov
        ∧ (((chunkText size ov t).getD (i + 1) []).take ov).length = ov := by
    intro i hi
    have ht : t ≠ [] := by
      intro hnil
      rw [hempty hnil] at hi
      simp at hi
    have hL : size < t.length := by
      by_contra hLe
      push_neg at hLe
      rw [hone ht hLe] at hi
      omega
    set step := size - ov with hstepdef
    have hstep : 0 < step := by omega
    have hcf := chunkText_closed size ov hsize hov t ht
    have hk : (chunkText size ov t).length = ceilDiv (t.length - size) step + 1 := by
      rw [chunkText_length size ov hsize hov t ht]
      simp [chunkCount, Nat.not_le.mpr hL, if_neg]
    have hik : i + 1 < ceilDiv (t.length - size) step + 1 := by omega
    rw [hcf]
    have hklen : ((List.range (chunkCount size step t.length)).map
        (fun j => (t.drop (j * step)).take size)).length
        = chunkCount size step t.length := by simp
    have hcnt : chunkCount size step t.length
        = ceilDiv (t.length - size) step + 1 := by
      simp [chunkCount, Nat.not_le.mpr hL, if_neg]
    rw [getD_range_map _ _ i (by rw [hcnt]; omega),
      getD_range_map _ _ (i + 1) (by rw [hcnt]; omega)]
    have heq1 : ((t.drop (i * step)).take size).drop step
        = (t.drop ((i + 1) * step)).take ov := by
      rw [List.drop_take, List.drop_drop]
      congr 1
      · omega
      · congr 1; ring
    have heq2 : ((t.drop ((i + 1) * step)).take size).take ov
        = (t.drop ((i + 1) * step)).take ov := by
      rw [List.take_take, Nat.min_eq_left (by omega)]
    refine ⟨by rw [heq1, heq2], ?_⟩
    rw [heq2]
    have hmul1 : (i + 1) * step ≤ ceilDiv (t.length - size) step * step :=
      Nat.mul_le_mul_right step (by omega)
    have hmul2 : ceilDiv (t.length - size) step * step
        ≤ t.length - size + step - 1 := ceilDiv_mul_le _ _
    have key : ov ≤ t.length - (i + 1) * step := by
      generalize hA : (i + 1) * step = A at hmul1 ⊢
      generalize hB : ceilDiv (t.length - size) step * step = B at hmul1 hmul2
      omega
    rw [List.length_take, List.length_drop, Nat.min_eq_left key]
  have hjoin : t ≠ [] → joinOverlap ov (chunkText size ov t) = t := by
    intro ht
    unfold chunkText
    rw [if_neg (by simpa [List.length_eq_zero] using ht)]
    exact joinOverlap_chunkGo size ov hsize hov t.length t ht le_rfl
  refine ⟨hempty, hone, hmany, hlenle, hshare, hjoin, List.enum_map_fst _, ?_⟩
  intro h500 h50 h1200
  have h3 : (chunkText size ov t).length = 3 := by
    rw [hmany (by omega)]
    subst h500 h50
    rw [h1200]
    rfl
  have := hshare 0 (by omega)
  subst h500 h50
  exact ⟨h3, this.1, this.2⟩

/-- Witness for `chunker_spec` at `chunk_size = 3`, `overlap = 1` on the text
`"abcde"`, which chunks as `["abc", "cde"]`. -/
theorem chunker_spec_witness :
    0 < 3 ∧ 1 < 3
      ∧ joinOverlap 1 (chunkText 3 1 ['a', 'b', 'c', 'd', 'e'])
          = ['a', 'b', 'c', 'd', 'e'] := by
  refine ⟨by decide, by decide, ?_⟩
  exact (chunker_spec 3 1 ['a', 'b', 'c', 'd', 'e'] (by decide)
    (by decide)).2.2.2.2.2.1 (by decide)

/-- Modelled from the spec: whitespace control characters (tab, newline,
carriage return) are mapped to plain spaces before further cleaning. -/
def wsToSpace (c : Char) : Char :=
  if c = '\t' ∨ c = '\n' ∨ c = '\r' then ' ' else c

/-- A character survives control-character stripping when its code point is at
least 32 (it is not a C0 control character). -/
def notControl (c : Char) : Bool := decide (32 ≤ c.toNat)

/-- Modelled from the spec: normalization first maps whitespace variants to
spaces and strips the remaining non-printable/control characters, preserving
all other (script-specific) characters. -/
def cleanChars (s : List Char) : List Char :=
  (s.map wsToSpace).filter notControl

/-- Collapse every run of spaces to a single space; the flag records whether
the previously emitted character was a space. -/
def squeezeSpaces : Bool → List Char → List Char
  | _, [] => []
  | prevSpace, c :: rest =>
    if c = ' ' then
      if prevSpace then squeezeSpaces true rest
      else ' ' :: squeezeSpaces true rest
    else c :: squeezeSpaces false rest

/-- Remove leading spaces. -/
def trimLeft (s : List Char) : List Char := s.dropWhile (fun c => decide (c = ' '))

/-- Remove trailing spaces. -/
def trimRight : List Char → List Char
  | [] => []
  | c :: rest =>
    let r := trimRight rest
    if r.isEmpty then (if c = ' ' then [] else [c]) else c :: r

/-- Modelled from the spec: the server-side text normalizer (Python) is not
present under `src/`.  Following spec section 4.1 it strips
non-printable/control characters, collapses redundant whitespace to single
spaces, trims the ends, and preserves script-specific characters; Unicode
normalization acts at the code-point table level and is the identity in this
embedding. -/
def normalize (s : List Char) : List Char :=
  trimRight (trimLeft (squeezeSpaces false (cleanChars s)))

/-- No two adjacent characters of the list are both spaces. -/
def noDouble : List Char → Bool
  | [] => true
  | [_] => true
  | a :: b :: rest => if a = ' ' ∧ b = ' ' then false else noDouble (b :: rest)

lemma noDouble_cons (c : Char) (l : List Char) :
    noDouble (c :: l) = true
      ↔ (noDouble l = true ∧ ¬(c = ' ' ∧ l.head? = some ' ')) := by
  cases l with
  | nil => simp [noDouble]
  | cons b rest =>
    by_cases h : c = ' ' ∧ b = ' '
    · simp [noDouble, h]
    · simp only [noDouble, if_neg h, List.head?_cons]
      constructor
      · intro hb
        refine ⟨hb, ?_⟩
        intro ⟨h1, h2⟩
        exact h ⟨h1, by injection h2⟩
      · intro ⟨hb, _⟩
        exact hb

lemma mem_squeezeSpaces : ∀ (s : List Char) (b : Bool) (c : Char),
    c ∈ squeezeSpaces b s → c ∈ s := by
  intro s
  induction s with
  | nil => intro b c hc; simp [squeezeSpaces] at hc
  | cons a rest ih =>
    intro b c hc
    by_cases ha : a = ' '
    · rw [show squeezeSpaces b (a :: rest)
          = if b then squeezeSpaces true rest
            else ' ' :: squeezeSpaces true rest by
        simp [squeezeSpaces, ha]] at hc
      cases b with
      | true =>
        rw [if_pos rfl] at hc
        exact List.mem_cons_of_mem a (ih true c hc)
      | false =>
        rw [if_neg (by simp)] at hc
        rcases List.mem_cons.mp hc with h1 | h2
        · exact h1 ▸ ha ▸ List.mem_cons_self a rest
        · exact List.mem_cons_of_mem a (ih true c h2)
    · rw [show squeezeSpaces b (a :: rest) = a :: squeezeSpaces false rest by
        simp [squeezeSpaces, ha]] at hc
      rcases List.mem_cons.mp hc with h1 | h2
      · exact h1 ▸ List.mem_cons_self a rest
      · exact List.mem_cons_of_mem a (ih false c h2)

lemma mem_trimLeft (s : List Char) (c : Char) (h : c ∈ trimLeft s) : c ∈ s :=
  (List.dropWhile_sublist _).subset h

lemma trimRight_cons (c : Char) (l : List Char) :
    trimRight (c :: l)
      = if (trimRight l).isEmpty then (if c = ' ' then [] else [c])
        else c :: trimRight l := rfl

lemma mem_trimRight : ∀ (s : List Char) (c : Char), c ∈ trimRight s → c ∈ s := by
  intro s
  induction s with
  | nil => intro c hc; exact absurd hc (List.not_mem_nil c)
  | cons a rest ih =>
    intro c hc
    rw [trimRight_cons] at hc
    by_cases hre : (trimRight rest).isEmpty
    · rw [if_pos hre] at hc
      by_cases ha : a = ' '
      · simp [ha] at hc
      · rw [if_neg ha] at hc
        simp only [List.mem_singleton] at hc
        exact hc ▸ List.mem_cons_self a rest
    · rw [if_neg hre] at hc
      rcases List.mem_cons.mp hc with h1 | h2
      · exact h1 ▸ List.mem_cons_self a rest
      · exact List.mem_cons_of_mem a (ih c h2)

lemma head?_trimLeft : ∀ s : List Char, (trimLeft s).head? ≠ some ' ' := by
  intro s
  induction s with
  | nil => simp [trimLeft]
  | cons a rest ih =>
    by_cases ha : a = ' '
    · rw [show trimLeft (a :: rest) = trimLeft rest by
        simp [trimLeft, List.dropWhile_cons, ha]]
      exact ih
    · rw [show trimLeft (a :: rest) = a :: rest by
        simp [trimLeft, List.dropWhile_cons, ha]]
      simp only [List.head?_cons, ne_eq, Option.some.injEq]
      exact ha

lemma squeezeSpaces_noDouble : ∀ s : List Char,
    noDouble (squeezeSpaces false s) = true
      ∧ noDouble (squeezeSpaces true s) = true
      ∧ (squeezeSpaces true s).head? ≠ some ' ' := by
  intro s
  induction s with
  | nil => simp [squeezeSpaces, noDouble]
  | cons a rest ih =>
    obtain ⟨h1, h2, h3⟩ := ih
    by_cases ha : a = ' '
    · have e1 : squeezeSpaces false (a :: rest) = ' ' :: squeezeSpaces true rest := by
        simp [squeezeSpaces, ha]
      have e2 : squeezeSpaces true (a :: rest) = squeezeSpaces true rest := by
        simp [squeezeSpaces, ha]
      refine ⟨?_, by rw [e2]; exact h2, by rw [e2]; exact h3⟩
      rw [e1, noDouble_cons]
      exact ⟨h2, fun h => h3 h.2⟩
    · have e : ∀ b, squeezeSpaces b (a :: rest) = a :: squeezeSpaces false rest := by
        intro b; simp [squeezeSpaces, ha]
      refine ⟨?_, ?_, ?_⟩
      · rw [e false, noDouble_cons]
        exact ⟨h1, fun h => ha h.1⟩
      · rw [e true, noDouble_cons]
        exact ⟨h1, fun h => ha h.1⟩
      · rw [e true]
        simp only [List.head?_cons, ne_eq, Option.some.injEq]
        exact ha

lemma squeezeSpaces_id : ∀ s : List Char, noDouble s = true →
    squeezeSpaces false s = s
      ∧ (s.head? ≠ some ' ' → squeezeSpaces true s = s) := by
  intro s
  induction s with
  | nil => intro _; simp [squeezeSpaces]
  | cons a rest ih =>
    intro hnd
    obtain ⟨hrest, hno⟩ := (noDouble_cons a rest).mp hnd
    obtain ⟨ihf, iht⟩ := ih hrest
    by_cases ha : a = ' '
    · constructor
      · have hresthead : rest.head? ≠ some ' ' := fun hh => hno ⟨ha, hh⟩
        rw [show squeezeSpaces false (a :: rest)
            = ' ' :: squeezeSpaces true rest by simp [squeezeSpaces, ha]]
        rw [iht hresthead, ha]
      · intro hh
        exact absurd (by rw [List.head?_cons, ha]) hh
    · have e : ∀ b, squeezeSpaces b (a :: rest) = a :: squeezeSpaces false rest := by
        intro b; simp [squeezeSpaces, ha]
      exact ⟨by rw [e false, ihf], fun _ => by rw [e true, ihf]⟩

lemma noDouble_tail (a : Char) (l : List Char) (h : noDouble (a :: l) = true) :
    noDouble l = true := ((noDouble_cons a l).mp h).1

lemma noDouble_trimLeft : ∀ s : List Char, noDouble s = true →
    noDouble (trimLeft s) = true := by
  intro s
  induction s with
  | nil => intro _; rfl
  | cons a rest ih =>
    intro hnd
    by_cases ha : a = ' '
    · rw [show trimLeft (a :: rest) = trimLeft rest by
        simp [trimLeft, List.dropWhile_cons, ha]]
      exact ih (noDouble_tail a rest hnd)
    · rw [show trimLeft (a :: rest) = a :: rest by
        simp [trimLeft, List.dropWhile_cons, ha]]
      exact hnd

lemma getLast?_cons_ne_nil (a : Char) (l : List Char) (h : l ≠ []) :
    (a :: l).getLast? = l.getLast? := by
  cases l with
  | nil => exact absurd rfl h
  | cons b rest => exact List.getLast?_cons_cons

lemma head?_trimRight : ∀ s : List Char, trimRight s ≠ [] →
    (trimRight s).head? = s.head? := by
  intro s
  induction s with
  | nil => intro h; exact absurd rfl h
  | cons a rest _ =>
    intro hne
    rw [trimRight_cons] at hne ⊢
    by_cases hre : (trimRight rest).isEmpty
    · rw [if_pos hre] at hne ⊢
      by_cases ha : a = ' '
      · rw [if_pos ha] at hne
        exact absurd rfl hne
      · rw [if_neg ha]
        simp
    · rw [if_neg hre]
      simp

lemma noDouble_trimRight : ∀ s : List Char, noDouble s = true →
    noDouble (trimRight s) = true := by
  intro s
  induction s with
  | nil => intro _; simp [trimRight, noDouble]
  | cons a rest ih =>
    intro hnd
    obtain ⟨hrest, hno⟩ := (noDouble_cons a rest).mp hnd
    rw [trimRight_cons]
    by_cases hre : (trimRight rest).isEmpty
    · rw [if_pos hre]
      by_cases ha : a = ' '
      · rw [if_pos ha]; rfl
      · rw [if_neg ha]; rfl
    · rw [if_neg hre]
      have hne : trimRight rest ≠ [] := by
        intro h; rw [h] at hre; exact hre rfl
      rw [noDouble_cons]
      refine ⟨ih hrest, ?_⟩
      intro ⟨h1, h2⟩
      rw [head?_trimRight rest hne] at h2
      exact hno ⟨h1, h2⟩

lemma getLast?_trimRight : ∀ s : List Char, (trimRight s).getLast? ≠ some ' ' := by
  intro s
  induction s with
  | nil => simp [trimRight]
  | cons a rest ih =>
    rw [trimRight_cons]
    by_cases hre : (trimRight rest).isEmpty
    · rw [if_pos hre]
      by_cases ha : a = ' '
      · rw [if_pos ha]; simp
      · rw [if_neg ha]
        simp only [List.getLast?_singleton, ne_eq, Option.some.injEq]
        exact ha
    · rw [if_neg hre]
      have hne : trimRight rest ≠ [] := by
        intro h; rw [h] at hre; exact hre rfl
      rw [getLast?_cons_ne_nil a _ hne]
      exact ih

lemma trimRight_id : ∀ s : List Char, s.getLast? ≠ some ' ' → trimRight s = s := by
  intro s
  induction s with
  | nil => intro _; rfl
  | cons a rest ih =>
    intro hlast
    cases rest with
    | nil =>
      have ha : a ≠ ' ' := by
        intro h
        exact hlast (by rw [h]; rfl)
      simp [trimRight, ha]
    | cons b l =>
      have hrest : (b :: l).getLast? ≠ some ' ' := by
        rw [← getLast?_cons_ne_nil a (b :: l) (List.cons_ne_nil b l)]
        exact hlast
      have hr : trimRight (b :: l) = b :: l := ih hrest
      rw [trimRight_cons, hr]
      simp

lemma trimLeft_id (s : List Char) (h : s.head? ≠ some ' ') : trimLeft s = s := by
  cases s with
  | nil => rfl
  | cons a rest =>
    have ha : a ≠ ' ' := by
      intro hh
      exact h (by rw [List.head?_cons, hh])
    simp [trimLeft, List.dropWhile_cons, ha]

lemma wsToSpace_idem (x : Char) : wsToSpace (wsToSpace x) = wsToSpace x := by
  by_cases h : x = '\t' ∨ x = '\n' ∨ x = '\r'
  · have h1 : wsToSpace x = ' ' := by rw [wsToSpace, if_pos h]
    rw [h1]
    decide
  · have h1 : wsToSpace x = x := by rw [wsToSpace, if_neg h]
    rw [h1]
    exact h1

lemma mem_cleanChars (s : List Char) (c : Char) (h : c ∈ cleanChars s) :
    wsToSpace c = c ∧ notControl c = true := by
  obtain ⟨hmem, hctrl⟩ := List.mem_filter.mp h
  obtain ⟨c0, _, hc0⟩ := List.mem_map.mp hmem
  exact ⟨by rw [← hc0, wsToSpace_idem], hctrl⟩

lemma cleanChars_eq_self (s : List Char)
    (h : ∀ c ∈ s, wsToSpace c = c ∧ notControl c = true) :
    cleanChars s = s := by
  unfold cleanChars
  have hm : s.map wsToSpace = s.map (fun a => a) :=
    List.map_congr_left (fun a ha => (h a ha).1)
  rw [hm, List.map_id']
  exact List.filter_eq_self.mpr (fun a ha => (h a ha).2)

lemma mem_normalize (s : List Char) (c : Char) (h : c ∈ normalize s) :
    c ∈ cleanChars s := by
  unfold normalize at h
  exact mem_squeezeSpaces _ false c
    (mem_trimLeft _ c (mem_trimRight _ c h))

/-- Claim C8: the text normalizer is idempotent, `normalize (normalize x) =
normalize x` for every input. -/
theorem normalize_idempotent (s : List Char) :
    normalize (normalize s) = normalize s := by
  have hclean : cleanChars (normalize s) = normalize s := by
    apply cleanChars_eq_self
    intro c hc
    exact mem_cleanChars s c (mem_normalize s c hc)
  have hnd : noDouble (normalize s) = true := by
    unfold normalize
    exact noDouble_trimRight _
      (noDouble_trimLeft _ (squeezeSpaces_noDouble (cleanChars s)).1)
  have hhead : (normalize s).head? ≠ some ' ' := by
    by_cases hne : normalize s = []
    · rw [hne]; simp
    · unfold normalize at hne ⊢
      rw [head?_trimRight _ hne]
      exact head?_trimLeft _
  have hlast : (normalize s).getLast? ≠ some ' ' := getLast?_trimRight _
  show trimRight (trimLeft (squeezeSpaces false (cleanChars (normalize s))))
      = normalize s
  rw [hclean, (squeezeSpaces_id (normalize s) hnd).1, trimLeft_id _ hhead,
    trimRight_id _ hlast]

/-- Modelled from the spec: the server-side memory manager (Python) is not
present under `src/`; the schema stores the buffer as `Chat.shortTermMemory`
(JSONB, default `[]`).  Appending to the bounded buffer keeps the most recent
`cap` entries, evicting the oldest first (spec section 4.6). -/
def appendMessage (cap : Nat) (buf : List String) (msg : String) : List String :=
  let b := buf ++ [msg]
  b.drop (b.length - cap)

/-- Result of appending a whole sequence of messages to an initially empty
short-term memory buffer of capacity `cap`. -/
def runAppends (cap : Nat) (msgs : List String) : List String :=
  msgs.foldl (appendMessage cap) []

lemma foldl_appendMessage (cap : Nat) :
    ∀ (msgs buf : List String), buf.length ≤ cap →
      msgs.foldl (appendMessage cap) buf
        = (buf ++ msgs).drop ((buf ++ msgs).length - cap) := by
  intro msgs
  induction msgs with
  | nil =>
    intro buf hle
    simp only [List.foldl_nil, List.append_nil]
    rw [Nat.sub_eq_zero_of_le hle, List.drop_zero]
  | cons m rest ih =>
    intro buf hle
    simp only [List.foldl_cons]
    have hd : appendMessage cap buf m
        = (buf ++ [m]).drop ((buf ++ [m]).length - cap) := rfl
    have hlen : (appendMessage cap buf m).length ≤ cap := by
      rw [hd, List.length_drop]
      omega
    rw [ih (appendMessage cap buf m) hlen, hd]
    rw [← List.drop_append_of_le_length (by simp)]
    rw [List.drop_drop]
    have hflat : buf ++ [m] ++ rest = buf ++ m :: rest := by simp
    rw [hflat]
    congr 1
    simp only [List.length_drop, List.length_append, List.length_cons,
      List.length_nil]
    omega

/-- Claim C7: for every capacity and every sequence of appended messages, the
short-term memory buffer holds exactly the most recent `min cap total`
messages in order (oldest evicted first), so its length never exceeds the
capacity. -/
theorem short_term_memory_bound (cap : Nat) (msgs : List String) :
    runAppends cap msgs = msgs.drop (msgs.length - cap)
      ∧ (runAppends cap msgs).length = min cap msgs.length
      ∧ (runAppends cap msgs).length ≤ cap := by
  have h := foldl_appendMessage cap msgs [] (by simp)
  simp only [List.nil_append] at h
  have h1 : runAppends cap msgs = msgs.drop (msgs.length - cap) := h
  refine ⟨h1, ?_, ?_⟩
  · rw [h1, List.length_drop]; omega
  · rw [h1, List.length_drop]; omega

/-- A retrieved chunk with its similarity score; similarities are modelled as
rationals. -/
structure ScoredChunk where
  chunkId : String
  chunkIndex : Nat
  similarity : ℚ
deriving DecidableEq

/-- Modelled from the spec: the retriever (Python, `apps/server`) is not
present under `src/`.  Step (4) of spec section 4.7: results whose similarity
is below the configured threshold are dropped. -/
def thresholdFilter (threshold : ℚ) (results : List ScoredChunk) :
    List ScoredChunk :=
  results.filter (fun r => decide (threshold ≤ r.similarity))

/-- Modelled from the spec: retrieval takes the top-k search results and then
applies the similarity-threshold filter. -/
def retrieveChunks (threshold : ℚ) (topK : Nat)
    (searchResults : List ScoredChunk) : List ScoredChunk :=
  thresholdFilter threshold (searchResults.take topK)

/-- Claim C6: every (chunk, similarity) pair appearing in a retrieval result
has similarity at least the configured threshold; no below-threshold chunk
ever appears. -/
theorem retrieve_threshold_postcondition (threshold : ℚ) (topK : Nat)
    (searchResults : List ScoredChunk) (r : ScoredChunk)
    (h : r ∈ retrieveChunks threshold topK searchResults) :
    threshold ≤ r.similarity := by
  have h2 := (List.mem_filter.mp h).2
  simpa using h2

/-- Witness for `retrieve_threshold_postcondition` at the configured default
threshold with a single search result of similarity 9/10. -/
theorem retrieve_threshold_postcondition_witness :
    (⟨"chunk1", 0, (9 : ℚ) / 10⟩ : ScoredChunk)
        ∈ retrieveChunks SIMILARITY_THRESHOLD TOP_K_CHUNKS
            [⟨"chunk1", 0, (9 : ℚ) / 10⟩]
      ∧ SIMILARITY_THRESHOLD ≤ (⟨"chunk1", 0, (9 : ℚ) / 10⟩ : ScoredChunk).similarity := by
  have hmem : (⟨"chunk1", 0, (9 : ℚ) / 10⟩ : ScoredChunk)
      ∈ retrieveChunks SIMILARITY_THRESHOLD TOP_K_CHUNKS
          [⟨"chunk1", 0, (9 : ℚ) / 10⟩] := by
    unfold retrieveChunks thresholdFilter SIMILARITY_THRESHOLD TOP_K_CHUNKS
    rw [show List.take 5 [(⟨"chunk1", 0, (9 : ℚ) / 10⟩ : ScoredChunk)]
        = [⟨"chunk1", 0, (9 : ℚ) / 10⟩] from rfl]
    rw [List.filter_cons,
      if_pos (decide_eq_true (by norm_num : (3 : ℚ) / 10 ≤ (9 : ℚ) / 10))]
    exact List.mem_cons_self _ _
  exact ⟨hmem, retrieve_threshold_postcondition SIMILARITY_THRESHOLD
    TOP_K_CHUNKS [⟨"chunk1", 0, (9 : ℚ) / 10⟩] _ hmem⟩

/-- Response of the question-answering endpoint, tagged with the approach
marker of the API documentation (`rag`, `fallback`, `error_fallback`). -/
structure AskResponse where
  answer : String
  approach_used : String
deriving DecidableEq

/-- Modelled from the spec: the FastAPI question-answering orchestrator is not
present under `src/`.  Spec sections 4.9 and 7: a malformed (empty) question
is a `ValidationError`; when retrieval yields nothing the answer is produced
by the degraded no-context path tagged `fallback`; when generation fails the
tag is `error_fallback`; otherwise `rag`.  The endpoint never errors merely
because retrieval found nothing. -/
def askQuestion (question : String) (retrieved : List ScoredChunk)
    (genFails : Bool) (ragAnswer fallbackAnswer : String) :
    Except String AskResponse :=
  if question = "" then Except.error "ValidationError"
  else if retrieved.isEmpty then Except.ok ⟨fallbackAnswer, "fallback"⟩
  else if genFails then Except.ok ⟨fallbackAnswer, "error_fallback"⟩
  else Except.ok ⟨ragAnswer, "rag"⟩

/-- Claim C5: a well-formed question whose retrieval yields zero chunks is
answered (no hard error) with `approach_used = "fallback"`; more generally a
well-formed request always yields an answer. -/
theorem empty_retrieval_falls_back (question : String)
    (retrieved : List ScoredChunk) (genFails : Bool)
    (ragAnswer fallbackAnswer : String) (hq : question ≠ "") :
    (∃ r, askQuestion question retrieved genFails ragAnswer fallbackAnswer
        = Except.ok r)
      ∧ (retrieved = [] →
          askQuestion question retrieved genFails ragAnswer fallbackAnswer
            = Except.ok ⟨fallbackAnswer, "fallback"⟩) := by
  unfold askQuestion
  rw [if_neg hq]
  constructor
  · by_cases h1 : retrieved.isEmpty
    · rw [if_pos h1]
      exact ⟨_, rfl⟩
    · rw [if_neg h1]
      by_cases h2 : genFails
      · rw [if_pos h2]
        exact ⟨_, rfl⟩
      · rw [if_neg h2]
        exact ⟨_, rfl⟩
  · intro hr
    rw [if_pos (by simp [hr])]

/-- Witness for `empty_retrieval_falls_back` at a concrete non-empty question
with empty retrieval. -/
theorem empty_retrieval_falls_back_witness :
    ("who" : String) ≠ ""
      ∧ (∃ r, askQuestion "who" [] false "a" "f" = Except.ok r)
      ∧ askQuestion "who" [] false "a" "f" = Except.ok ⟨"f", "fallback"⟩ :=
  ⟨by decide,
    (empty_retrieval_falls_back "who" [] false "a" "f" (by decide)).1,
    (empty_retrieval_falls_back "who" [] false "a" "f" (by decide)).2 rfl⟩

/-- The pgvector column `DocumentChunk.embedding vector(1536)` accepts exactly
the vectors of its declared dimension. -/
def columnAcceptsEmbedding (v : List ℚ) : Bool :=
  v.length == documentChunkColumnDimension

/-- Upsert of a chunk embedding into the vector index as constrained by the
database schema: idempotent by chunk id, rejecting any vector whose dimension
differs from the declared column dimension. -/
def upsertChunk (idx : List (String × List ℚ)) (cid : String) (v : List ℚ) :
    Except String (List (String × List ℚ)) :=
  if columnAcceptsEmbedding v then
    Except.ok ((idx.filter (fun c => !(c.1 == cid))) ++ [(cid, v)])
  else Except.error "dimension mismatch"

/-- Claim C2 (code bug): the configured embedding dimension
(`VECTOR_DIMENSION = 384`, the output size of the configured embedding model,
also documented by the health endpoint) differs from the declared dimension of
the `DocumentChunk.embedding` column (`vector(1536)`), so a vector produced by
the configured model is rejected by the schema-constrained upsert rather than
stored with the configured dimension. -/
theorem embedding_dimension_mismatch :
    VECTOR_DIMENSION ≠ documentChunkColumnDimension
      ∧ columnAcceptsEmbedding (List.replicate VECTOR_DIMENSION 0) = false
      ∧ upsertChunk [] "chunk0" (List.replicate VECTOR_DIMENSION 0)
          = Except.error "dimension mismatch" := by
  have h : columnAcceptsEmbedding (List.replicate VECTOR_DIMENSION 0) = false := by
    unfold columnAcceptsEmbedding
    rw [List.length_replicate]
    decide
  refine ⟨by decide, h, ?_⟩
  unfold upsertChunk
  rw [h]
  simp

/-- Modelled from the spec: the server-side feedback handler behind
`POST /rag/feedback` (called by the client's `submitFeedback`) is not present
under `src/`.  Spec section 4.10: `record_feedback` stores exactly one
feedback label per message, overwriting on re-submission (the schema enforces
at most one record per message through the unique index
`QueryEvaluation_messageId_key`).  The store is a list of
(messageId, label) records. -/
def recordFeedback (s : List (String × String)) (m lbl : String) :
    List (String × String) :=
  if s.any (fun p => p.1 == m) then
    s.map (fun p => if p.1 = m then (m, lbl) else p)
  else s ++ [(m, lbl)]

/-- Result of submitting a whole sequence of feedback calls against an
initially empty evaluation store. -/
def runFeedback (calls : List (String × String)) : List (String × String) :=
  calls.foldl (fun acc c => recordFeedback acc c.1 c.2) []

/-- The label of the last call for message `m` in a sequence of feedback
calls, if any. -/
def lastLabelFor : List (String × String) → String → Option String
  | [], _ => none
  | c :: rest, m =>
    match lastLabelFor rest m with
    | some l => some l
    | none => if c.1 = m then some c.2 else none

/-- Every message id occurs on at most one record of the store. -/
def uniqKeys (s : List (String × String)) : Prop :=
  ∀ m, (s.filter (fun p => p.1 == m)).length ≤ 1

lemma filter_recordFeedback_same (s : List (String × String)) (m lbl : String)
    (hu : uniqKeys s) :
    (recordFeedback s m lbl).filter (fun p => p.1 == m) = [(m, lbl)] := by
  unfold recordFeedback
  by_cases h : s.any (fun p => p.1 == m)
  · rw [if_pos h, List.filter_map]
    have hc : s.filter ((fun p => p.1 == m)
          ∘ (fun p => if p.1 = m then (m, lbl) else p))
        = s.filter (fun p => p.1 == m) := by
      apply List.filter_congr
      intro a _
      by_cases ha : a.1 = m
      · simp [ha]
      · simp [ha]
    rw [hc]
    have hge : 0 < (s.filter (fun p => p.1 == m)).length := by
      obtain ⟨x, hx, hpx⟩ := List.any_eq_true.mp h
      have hmem : x ∈ s.filter (fun p => p.1 == m) :=
        List.mem_filter.mpr ⟨hx, hpx⟩
      exact List.length_pos.mpr (fun hnil => by rw [hnil] at hmem; simp at hmem)
    have hlen1 : (s.filter (fun p => p.1 == m)).length = 1 := by
      have hle := hu m
      omega
    obtain ⟨q, hq⟩ := List.length_eq_one.mp hlen1
    rw [hq]
    have hqm : q.1 = m := by
      have hqmem : q ∈ s.filter (fun p => p.1 == m) := by
        rw [hq]; exact List.mem_cons_self q []
      have := (List.mem_filter.mp hqmem).2
      simpa using this
    simp [hqm]
  · rw [if_neg h, List.filter_append]
    have h0 : s.filter (fun p => p.1 == m) = [] := by
      rw [List.filter_eq_nil_iff]
      intro a ha
      intro hpa
      exact h (List.any_eq_true.mpr ⟨a, ha, hpa⟩)
    rw [h0]
    simp

lemma filter_recordFeedback_other (s : List (String × String))
    (m lbl m' : String) (hne : m' ≠ m) :
    (recordFeedback s m lbl).filter (fun p => p.1 == m')
      = s.filter (fun p => p.1 == m') := by
  unfold recordFeedback
  by_cases h : s.any (fun p => p.1 == m)
  · rw [if_pos h, List.filter_map]
    have hc : s.filter ((fun p => p.1 == m')
          ∘ (fun p => if p.1 = m then (m, lbl) else p))
        = s.filter (fun p => p.1 == m') := by
      apply List.filter_congr
      intro a _
      by_cases ha : a.1 = m
      · simp [ha]
      · simp [ha]
    rw [hc]
    have hid : ∀ a ∈ s.filter (fun p => p.1 == m'),
        (fun p => if p.1 = m then (m, lbl) else p) a = a := by
      intro a ha
      have ham : a.1 = m' := by
        have := (List.mem_filter.mp ha).2
        simpa using this
      simp only []
      rw [if_neg (by rw [ham]; exact hne)]
    rw [List.map_congr_left hid, List.map_id']
  · rw [if_neg h, List.filter_append]
    have hfalse : ((m, lbl).1 == m') = false :=
      beq_eq_false_iff_ne.mpr (fun hh => hne (hh.symm))
    simp [hfalse]

lemma uniqKeys_recordFeedback (s : List (String × String)) (m lbl : String)
    (hu : uniqKeys s) : uniqKeys (recordFeedback s m lbl) := by
  intro m'
  by_cases he : m' = m
  · subst he
    rw [filter_recordFeedback_same s m' lbl hu]
    simp
  · rw [filter_recordFeedback_other s m lbl m' he]
    exact hu m'

lemma foldl_feedback :
    ∀ (calls : List (String × String)) (s : List (String × String)),
      uniqKeys s → ∀ m,
        (calls.foldl (fun acc c => recordFeedback acc c.1 c.2) s).filter
            (fun p => p.1 == m)
          = match lastLabelFor calls m with
            | some l => [(m, l)]
            | none => s.filter (fun p => p.1 == m) := by
  intro calls
  induction calls with
  | nil =>
    intro s hu m
    simp [lastLabelFor]
  | cons c rest ih =>
    intro s hu m
    simp only [List.foldl_cons]
    rw [ih (recordFeedback s c.1 c.2) (uniqKeys_recordFeedback s c.1 c.2 hu) m]
    cases hll : lastLabelFor rest m with
    | some l => simp [lastLabelFor, hll]
    | none =>
      simp only [lastLabelFor, hll]
      by_cases he : c.1 = m
      · subst he
        rw [if_pos rfl]
        exact filter_recordFeedback_same s c.1 c.2 hu
      · rw [if_neg he]
        exact filter_recordFeedback_other s c.1 c.2 m
          (fun hh => he hh.symm)

lemma lastLabelFor_isSome :
    ∀ (calls : List (String × String)) (m : String),
      m ∈ calls.map Prod.fst → ∃ l, lastLabelFor calls m = some l := by
  intro calls
  induction calls with
  | nil => intro m hm; simp at hm
  | cons c rest ih =>
    intro m hm
    simp only [List.map_cons, List.mem_cons] at hm
    show ∃ l, (match lastLabelFor rest m with
      | some l => some l
      | none => if c.1 = m then some c.2 else none) = some l
    cases hll : lastLabelFor rest m with
    | some l => exact ⟨l, rfl⟩
    | none =>
      rcases hm with h1 | h2
      · exact ⟨c.2, by rw [if_pos h1.symm]⟩
      · obtain ⟨l, hl⟩ := ih m h2
        rw [hll] at hl
        exact absurd hl (by simp)

/-- Claim C4: after any finite sequence of `record_feedback` calls that
mentions a message id, the evaluation store holds exactly one record for that
message and its label is the last submitted one (last-write-wins); in
particular two successive submissions with different labels leave exactly one
record carrying the second label. -/
theorem feedback_last_write_wins (calls : List (String × String)) (m : String)
    (h : m ∈ calls.map Prod.fst) :
    (∃ l, lastLabelFor calls m = some l
        ∧ (runFeedback calls).filter (fun p => p.1 == m) = [(m, l)]
        ∧ ((runFeedback calls).filter (fun p => p.1 == m)).length = 1)
      ∧ (∀ l₁ l₂, runFeedback [(m, l₁), (m, l₂)] = [(m, l₂)]) := by
  constructor
  · obtain ⟨l, hl⟩ := lastLabelFor_isSome calls m h
    have hu : uniqKeys ([] : List (String × String)) := by
      intro m'; simp
    have h2 := foldl_feedback calls [] hu m
    rw [hl] at h2
    refine ⟨l, hl, h2, ?_⟩
    unfold runFeedback
    rw [h2]
    rfl
  · intro l₁ l₂
    show recordFeedback (recordFeedback [] m l₁) m l₂ = [(m, l₂)]
    rw [show recordFeedback [] m l₁ = [(m, l₁)] by simp [recordFeedback]]
    unfold recordFeedback
    rw [if_pos (by simp)]
    simp

/-- Witness for `feedback_last_write_wins` on the concrete call sequence
submitting `helpful` then `partial` for message `msg1`. -/
theorem feedback_last_write_wins_witness :
    ("msg1" : String) ∈ ([("msg1", "helpful"), ("msg1", "partial")].map Prod.fst)
      ∧ (∃ l, lastLabelFor [("msg1", "helpful"), ("msg1", "partial")] "msg1"
            = some l
          ∧ (runFeedback [("msg1", "helpful"), ("msg1", "partial")]).filter
              (fun p => p.1 == "msg1") = [("msg1", l)]
          ∧ ((runFeedback [("msg1", "helpful"), ("msg1", "partial")]).filter
              (fun p => p.1 == "msg1")).length = 1)
      ∧ runFeedback [("msg1", "helpful"), ("msg1", "partial")]
          = [("msg1", "partial")] :=
  ⟨by decide,
    (feedback_last_write_wins
      [("msg1", "helpful"), ("msg1", "partial")] "msg1" (by decide)).1,
    (feedback_last_write_wins
      [("msg1", "helpful"), ("msg1", "partial")] "msg1" (by decide)).2
      "helpful" "partial"⟩

/-- State of the persistence and vector store: the ids of the `Document` rows
and the (chunkId, documentId) pairs of the `DocumentChunk` rows. -/
structure StoreState where
  docs : List String
  chunks : List (String × String)
deriving DecidableEq

/-- Database-level deletion of a `Document` row: the foreign key
`DocumentChunk_documentId_fkey` is declared `ON DELETE RESTRICT` in the
migration, so the row may only be deleted once no chunk references it. -/
def deleteDocRow (s : StoreState) (d : String) : Except String StoreState :=
  if s.chunks.any (fun c => c.2 == d) then Except.error "RestrictViolation"
  else Except.ok { docs := s.docs.filter (fun x => !(x == d)), chunks := s.chunks }

/-- Deletion of every chunk owned by a document. -/
def deleteChunksOf (s : StoreState) (d : String) : StoreState :=
  { docs := s.docs, chunks := s.chunks.filter (fun c => !(c.2 == d)) }

/-- Modelled from the spec: the server-side document-deletion endpoint
(`DELETE /documents/{id}`) is not present under `src/`.  Spec section 4.4:
`delete(document_id)` removes all chunks of the document and is atomic from
the caller's perspective.  The endpoint deletes the chunks and then the
document row in one transaction; the two boolean oracles inject a failure of
either step, which rolls the whole transaction back so that no partial state
is observable. -/
def deleteDocumentTx (s : StoreState) (d : String)
    (chunkDeleteFails docDeleteFails : Bool) : Except String StoreState :=
  if chunkDeleteFails then Except.error "IndexFailure"
  else
    let s1 := deleteChunksOf s d
    if docDeleteFails then Except.error "PersistenceError"
    else deleteDocRow s1 d

/-- The state a caller observes after a transactional operation: the new state
on success, the unchanged original state on failure (rollback). -/
def observedState (orig : StoreState) : Except String StoreState → StoreState
  | Except.ok s => s
  | Except.error _ => orig

/-- Claim C1: deleting a document removes every chunk owned by it (and the
document row, which the `RESTRICT` foreign key then permits), and the
operation is atomic: on failure the caller observes the original state, so in
every execution the document's chunk set is either fully present or fully
removed — never a proper non-empty subset. -/
theorem document_delete_cascades_atomic (s : StoreState) (d : String)
    (f1 f2 : Bool) :
    (∀ s', deleteDocumentTx s d f1 f2 = Except.ok s' →
        s'.chunks = s.chunks.filter (fun c => !(c.2 == d))
          ∧ (∀ c ∈ s'.chunks, c.2 ≠ d)
          ∧ d ∉ s'.docs)
      ∧ (∀ e, deleteDocumentTx s d f1 f2 = Except.error e →
          observedState s (deleteDocumentTx s d f1 f2) = s)
      ∧ ((observedState s (deleteDocumentTx s d f1 f2)).chunks.filter
            (fun c => c.2 == d) = s.chunks.filter (fun c => c.2 == d)
          ∨ (observedState s (deleteDocumentTx s d f1 f2)).chunks.filter
              (fun c => c.2 == d) = [])
      ∧ (f1 = false → f2 = false →
          ∃ s', deleteDocumentTx s d f1 f2 = Except.ok s') := by
  have hnorestrict :
      ((deleteChunksOf s d).chunks.any (fun c => c.2 == d)) = false := by
    rw [List.any_eq_false]
    intro c hc
    have := (List.mem_filter.mp hc).2
    simp at this
    simp [this]
  cases f1 with
  | true =>
    refine ⟨?_, ?_, ?_, ?_⟩
    · intro s' hs'
      exact absurd hs' (by simp [deleteDocumentTx])
    · intro e _
      simp [deleteDocumentTx, observedState]
    · left
      simp [deleteDocumentTx, observedState]
    · intro hf1
      exact absurd hf1 (by simp)
  | false =>
    cases f2 with
    | true =>
      refine ⟨?_, ?_, ?_, ?_⟩
      · intro s' hs'
        exact absurd hs' (by simp [deleteDocumentTx])
      · intro e _
        simp [deleteDocumentTx, observedState]
      · left
        simp [deleteDocumentTx, observedState]
      · intro _ hf2
        exact absurd hf2 (by simp)
    | false =>
      have htx0 : deleteDocumentTx s d false false
          = deleteDocRow (deleteChunksOf s d) d := rfl
      have htx : deleteDocumentTx s d false false
          = Except.ok ⟨s.docs.filter (fun x => !(x == d)),
              s.chunks.filter (fun c => !(c.2 == d))⟩ := by
        rw [htx0]
        unfold deleteDocRow
        rw [hnorestrict]
        rw [if_neg (by simp)]
        rfl
      refine ⟨?_, ?_, ?_, fun _ _ => ⟨_, htx⟩⟩
      · intro s' hs'
        rw [htx] at hs'
        injection hs' with hs'
        subst hs'
        refine ⟨rfl, ?_, ?_⟩
        · intro c hc
          have := (List.mem_filter.mp hc).2
          simp at this
          exact this
        · intro hd
          have := (List.mem_filter.mp hd).2
          simp at this
      · intro e he
        rw [htx] at he
        exact absurd he (by simp)
      · right
        rw [htx]
        simp only [observedState]
        rw [List.filter_eq_nil_iff]
        intro c hc
        have := (List.mem_filter.mp hc).2
        simp at this
        simp [this]

/-- Witness for `document_delete_cascades_atomic`: the failure-free execution
on a concrete store succeeds. -/
theorem document_delete_cascades_atomic_witness :
    ∃ s', deleteDocumentTx ⟨["d1", "d2"], [("c1", "d1"), ("c2", "d2")]⟩
        "d1" false false = Except.ok s' :=
  (document_delete_cascades_atomic
    ⟨["d1", "d2"], [("c1", "d1"), ("c2", "d2")]⟩ "d1" false false).2.2.2 rfl rfl

/-- JavaScript `||` default for a possibly absent rational field: `0` is falsy,
so it is replaced by the default as well. -/
def jsOrRat (v : Option ℚ) (d : ℚ) : ℚ :=
  match v with
  | none => d
  | some x => if x = 0 then d else x

/-- JavaScript `||` default for a possibly absent string field: the empty
string is falsy. -/
def jsOrString (v : Option String) (d : String) : String :=
  match v with
  | none => d
  | some s => if s = "" then d else s

/-- JavaScript `||` default for a possibly absent boolean field. -/
def jsOrBool (v : Option Bool) (d : Bool) : Bool :=
  match v with
  | none => d
  | some b => if b then b else d

/-- JavaScript `||` default for a possibly absent count field: `0` is falsy. -/
def jsOrNat (v : Option Nat) (d : Nat) : Nat :=
  match v with
  | none => d
  | some n => if n = 0 then d else n

/-- JavaScript `||` default for a possibly absent array field: arrays are
truthy even when empty. -/
def jsOrList (v : Option (List α)) (d : List α) : List α :=
  match v with
  | none => d
  | some l => l

/-- One retrieved source as exposed by the client chat API
(`apps/client/src/lib/api`, `ChatResponse.sources`). -/
structure RagSource where
  content : String
  similarity : ℚ
  document_title : String
  chunk_index : Nat
deriving DecidableEq

/-- The `message` object of the backend response to `POST /chat/message`. -/
structure BackendMessage where
  content : String
  id : Option String
deriving DecidableEq

/-- The optional `rag_metadata` object of the backend response; every field
may itself be absent. -/
structure RagMetadata where
  sources : Option (List RagSource)
  confidence : Option ℚ
  response_time : Option ℚ
  language : Option String
  chunks_retrieved : Option Nat
deriving DecidableEq

/-- The backend response to the client's `sendMessage`. -/
structure BackendChatResponse where
  message : BackendMessage
  rag_metadata : Option RagMetadata
  chat_id : String
  created_new_chat : Option Bool
deriving DecidableEq

/-- The `ChatResponse` returned to callers of the client chat API. -/
structure ChatResponse where
  answer : String
  sources : List RagSource
  messageId : String
  groundingScore : ℚ
  chatId : String
  responseTime : ℚ
  language : String
  chunksRetrieved : Nat
  createdNewChat : Bool
deriving DecidableEq

/-- Response mapping of the client's `sendMessage` (source: the chat API
module, lines building the returned `ChatResponse`): optional chaining into
`rag_metadata` with `||` defaults, and `created_new_chat || false`.  The
nondeterministic `Date.now()` of the fallback message id is passed in as
`now`. -/
def sendMessage (now : Nat) (b : BackendChatResponse) : ChatResponse where
  answer := b.message.content
  sources := jsOrList (b.rag_metadata.bind (fun m => m.sources)) []
  messageId := jsOrString b.message.id ("msg-" ++ toString now)
  groundingScore := jsOrRat (b.rag_metadata.bind (fun m => m.confidence)) 0
  chatId := b.chat_id
  responseTime := jsOrRat (b.rag_metadata.bind (fun m => m.response_time)) 0
  language := jsOrString (b.rag_metadata.bind (fun m => m.language)) "en"
  chunksRetrieved := jsOrNat (b.rag_metadata.bind (fun m => m.chunks_retrieved)) 0
  createdNewChat := jsOrBool b.created_new_chat false

/-- Claim C9: when the backend response carries no `rag_metadata`, the client
maps the response to empty sources, grounding score 0, response time 0,
language "en" and 0 retrieved chunks; and `createdNewChat` is `false` whenever
the backend omits `created_new_chat`. -/
theorem sendMessage_defaults (now : Nat) (b : BackendChatResponse) :
    (b.rag_metadata = none →
        (sendMessage now b).sources = []
          ∧ (sendMessage now b).groundingScore = 0
          ∧ (sendMessage now b).responseTime = 0
          ∧ (sendMessage now b).language = "en"
          ∧ (sendMessage now b).chunksRetrieved = 0)
      ∧ (b.created_new_chat = none → (sendMessage now b).createdNewChat = false) := by
  constructor
  · intro h
    refine ⟨?_, ?_, ?_, ?_, ?_⟩ <;>
      simp [sendMessage, h, jsOrList, jsOrRat, jsOrString, jsOrNat,
        Option.bind]
  · intro h
    simp [sendMessage, h, jsOrBool]

/-- Witness for `sendMessage_defaults` on a concrete backend response with
`rag_metadata` and `created_new_chat` both absent. -/
theorem sendMessage_defaults_witness :
    (sendMessage 0 ⟨⟨"hello", none⟩, none, "chat1", none⟩).sources = []
      ∧ (sendMessage 0 ⟨⟨"hello", none⟩, none, "chat1", none⟩).language = "en"
      ∧ (sendMessage 0 ⟨⟨"hello", none⟩, none, "chat1", none⟩).createdNewChat
          = false :=
  ⟨((sendMessage_defaults 0 ⟨⟨"hello", none⟩, none, "chat1", none⟩).1 rfl).1,
    ((sendMessage_defaults 0 ⟨⟨"hello", none⟩, none, "chat1", none⟩).1 rfl).2.2.2.1,
    (sendMessage_defaults 0 ⟨⟨"hello", none⟩, none, "chat1", none⟩).2 rfl⟩

/-- JavaScript `Math.round` on non-negative values: floor of `x + 1/2`. -/
def jsRound (x : ℚ) : ℤ := ⌊x + 1 / 2⌋

/-- Score computed for one query result by `runBatchTest` on the evaluation
page: 30 points for language consistency, the confidence scaled to 40 points,
a response-time score `max 0 ((5 - t)/5) * 20`, and a chunk-retrieval score
`min (chunks/5) 1 * 10`, rounded. -/
def runBatchTestScore (language expected : String)
    (confidence response_time chunks_retrieved : ℚ) : ℤ :=
  jsRound ((if language = expected then (30 : ℚ) else 0)
    + confidence * 40
    + max 0 ((5 - response_time) / 5) * 20
    + min (chunks_retrieved / 5) 1 * 10)

lemma jsRound_nonneg (x : ℚ) (h : 0 ≤ x) : 0 ≤ jsRound x := by
  unfold jsRound
  exact Int.le_floor.mpr (by push_cast; linarith)

lemma jsRound_le (x : ℚ) (b : ℤ) (h : x ≤ (b : ℚ)) : jsRound x ≤ b := by
  unfold jsRound
  have hlt : ⌊x + 1 / 2⌋ < b + 1 := by
    apply Int.floor_lt.mpr
    push_cast
    linarith
  omega

/-- Claim C10: for confidence in [0,1], non-negative response time and
non-negative retrieved-chunk count, the batch-evaluation score lies in
[0, 100]; when the detected language differs from the expected one the score
is at most 70. -/
theorem runBatchTest_score_bounds (language expected : String)
    (confidence response_time chunks_retrieved : ℚ)
    (h1 : 0 ≤ confidence) (h2 : confidence ≤ 1)
    (h3 : 0 ≤ response_time) (h4 : 0 ≤ chunks_retrieved) :
    0 ≤ runBatchTestScore language expected confidence response_time
        chunks_retrieved
      ∧ runBatchTestScore language expected confidence response_time
          chunks_retrieved ≤ 100
      ∧ (language ≠ expected →
          runBatchTestScore language expected confidence response_time
            chunks_retrieved ≤ 70) := by
  have t1a : (0 : ℚ) ≤ (if language = expected then (30 : ℚ) else 0) := by
    split <;> norm_num
  have t1b : (if language = expected then (30 : ℚ) else 0) ≤ 30 := by
    split <;> norm_num
  have t2a : (0 : ℚ) ≤ confidence * 40 := mul_nonneg h1 (by norm_num)
  have t2b : confidence * 40 ≤ 40 := by nlinarith
  have t3m : max (0 : ℚ) ((5 - response_time) / 5) ≤ 1 := by
    apply max_le (by norm_num)
    rw [div_le_one (by norm_num)]
    linarith
  have t3a : (0 : ℚ) ≤ max 0 ((5 - response_time) / 5) * 20 :=
    mul_nonneg (le_max_left 0 _) (by norm_num)
  have t3b : max (0 : ℚ) ((5 - response_time) / 5) * 20 ≤ 20 := by nlinarith
  have t4m : min (chunks_retrieved / 5) (1 : ℚ) ≤ 1 := min_le_right _ _
  have t4a : (0 : ℚ) ≤ min (chunks_retrieved / 5) 1 * 10 :=
    mul_nonneg (le_min (div_nonneg h4 (by norm_num)) (by norm_num)) (by norm_num)
  have t4b : min (chunks_retrieved / 5) (1 : ℚ) * 10 ≤ 10 := by nlinarith
  refine ⟨?_, ?_, ?_⟩
  · exact jsRound_nonneg _ (by linarith)
  · exact jsRound_le _ 100 (by push_cast; linarith)
  · intro hne
    unfold runBatchTestScore
    rw [if_neg hne]
    exact jsRound_le _ 70 (by push_cast; linarith)

/-- Witness for `runBatchTest_score_bounds` at confidence 1/2, response time
2 s, 3 retrieved chunks, detected language differing from the expected one. -/
theorem runBatchTest_score_bounds_witness :
    (0 : ℚ) ≤ 1 / 2 ∧ (1 / 2 : ℚ) ≤ 1 ∧ (0 : ℚ) ≤ 2 ∧ (0 : ℚ) ≤ 3
      ∧ ("bn" : String) ≠ "en"
      ∧ 0 ≤ runBatchTestScore "bn" "en" (1 / 2) 2 3
      ∧ runBatchTestScore "bn" "en" (1 / 2) 2 3 ≤ 100
      ∧ runBatchTestScore "bn" "en" (1 / 2) 2 3 ≤ 70 :=
  ⟨by norm_num, by norm_num, by norm_num, by norm_num, by decide,
    (runBatchTest_score_bounds "bn" "en" (1 / 2) 2 3
      (by norm_num) (by norm_num) (by norm_num) (by norm_num)).1,
    (runBatchTest_score_bounds "bn" "en" (1 / 2) 2 3
      (by norm_num) (by norm_num) (by norm_num) (by norm_num)).2.1,
    (runBatchTest_score_bounds "bn" "en" (1 / 2) 2 3
      (by norm_num) (by norm_num) (by norm_num) (by norm_num)).2.2
      (by decide)⟩

end Tukhor
